import Mathlib

set_option maxHeartbeats 1000000

/-!
# Shallow embedding of `coverage/data.py` (class `CoverageData`)

The Python module stores, per source file, the set of executed line numbers
and the set of executed arcs (pairs of line numbers).  Both are kept as
Python dicts whose values are all `None`; such a dict is fully described by
its keys in insertion order, so we embed it as a `List` of keys.  An outer
dict `filename -> inner data` is embedded as an association list in
insertion order, mirrored by `dGet`/`dSet` below which reproduce Python's
`d.get`, `d[k] = v` and `d.setdefault(k, {}).update(...)` behaviour.

File-system effects are made explicit: reading a data file consumes a
`FileContent` describing what is found at a path, writing produces the
`CoverageRecord` that is pickled, and `erase` acts on an explicit list of
existing paths.  Pickling of a well-formed record is faithful (a pickled
dict of lists reads back equal), so serialization itself is the identity
on `CoverageRecord`.
-/

/-- Embedding of a Python `None`-valued dict: `d[k] = None` appends `k` if it
is a fresh key and leaves the dict unchanged otherwise. -/
def pyInsertKey {α : Type} [DecidableEq α] (d : List α) (k : α) : List α :=
  if k ∈ d then d else d ++ [k]

/-- `d.update(new)` for `None`-valued dicts: insert the keys of `new` in
order. -/
def pyUpdate {α : Type} [DecidableEq α] (d new : List α) : List α :=
  new.foldl pyInsertKey d

/-- `dict.fromkeys(seq, None)`: each element of `seq` becomes a key; the
first occurrence decides the position. -/
def dictFromKeys {α : Type} [DecidableEq α] (seq : List α) : List α :=
  pyUpdate [] seq

/-- `d.get(k)` on an association list: first entry with the given key. -/
def dGet {κ β : Type} [DecidableEq κ] : List (κ × β) → κ → Option β
  | [], _ => none
  | p :: d, k => if p.1 = k then some p.2 else dGet d k

/-- `d[k] = v`: replace the value in place when the key is present,
otherwise append a new entry at the end. -/
def dSet {κ β : Type} [DecidableEq κ] (d : List (κ × β)) (k : κ) (v : β) :
    List (κ × β) :=
  if (dGet d k).isSome then d.map (fun p => if p.1 = k then (k, v) else p)
  else d ++ [(k, v)]

/-- `d.setdefault(k, {}).update(new)` on a dict of `None`-valued dicts. -/
def setdefaultUpdate {κ α : Type} [DecidableEq κ] [DecidableEq α]
    (d : List (κ × List α)) (k : κ) (new : List α) : List (κ × List α) :=
  dSet d k (pyUpdate ((dGet d k).getD []) new)

/-- `sorted` on line numbers. -/
def sortNat (l : List Nat) : List Nat := l.insertionSort (· ≤ ·)

/-- Python's `<=` on pairs of ints: lexicographic order, used by `sorted`
on arc pairs. -/
def arcLe (a b : Nat × Nat) : Prop :=
  a.1 < b.1 ∨ (a.1 = b.1 ∧ a.2 ≤ b.2)

instance : DecidableRel arcLe := fun a b =>
  inferInstanceAs (Decidable (a.1 < b.1 ∨ (a.1 = b.1 ∧ a.2 ≤ b.2)))

/-- `sorted` on arc pairs (lexicographic). -/
def sortArcs (l : List (Nat × Nat)) : List (Nat × Nat) := l.insertionSort arcLe

/-- `os.path.basename` for POSIX paths, also the local part of
`os.path.split`: everything after the last slash. -/
def basename (s : String) : String :=
  ⟨(s.data.reverse.takeWhile (fun c => c ≠ '/')).reverse⟩

/-- `p` is a leading substring of `s`, on character lists. -/
def charsStart : List Char → List Char → Bool
  | _, [] => true
  | [], _ :: _ => false
  | a :: s, b :: t => a = b && charsStart s t

/-- Python's `s.startswith(p)`. -/
def strStarts (s p : String) : Bool := charsStart s.data p.data

/-- In-memory state of a `CoverageData` object: the configured collector
string, the `use_file` flag, the resolved data-file name, and the two maps
`self.lines` and `self.arcs` (filename to `None`-valued dict). -/
structure CoverageData where
  collector : Option String
  use_file : Bool
  filename : String
  lines : List (String × List Nat)
  arcs : List (String × List (Nat × Nat))
deriving DecidableEq

/-- A freshly constructed `CoverageData` with the given resolved filename:
`self.lines` and `self.arcs` start empty and `use_file` is true. -/
def freshData (filename : String) (collector : Option String) : CoverageData :=
  { collector := collector, use_file := true, filename := filename,
    lines := [], arcs := [] }

/-- The record pickled into a data file: the recognized keys `lines`,
`arcs` and `collector`, each possibly absent. -/
structure CoverageRecord where
  lines : Option (List (String × List Nat))
  arcs : Option (List (String × List (Nat × Nat)))
  collector : Option String
deriving DecidableEq

/-- What `_read_file` finds at a path.  The cases follow the exception
points of the `try` block: `missing` (open raises), `corrupt`
(`pickle.load` raises), `nonDict` (the pickled value is not a dict, so the
`isinstance` guard skips unpacking), `badLines` (a dict whose `lines`
entry makes the first comprehension raise, before `lines` is assigned),
`badArcs` (a dict whose `lines` entry unpacked fine but whose `arcs` entry
makes the second comprehension raise), and `record` (a fully well-typed
dict). -/
inductive FileContent
  | missing
  | corrupt
  | nonDict
  | badLines
  | badArcs (rawLines : List (String × List Nat))
  | record (r : CoverageRecord)
deriving DecidableEq

/-- Unpacking of the `lines` item: `dict.fromkeys` per file. -/
def unpackLines (raw : List (String × List Nat)) : List (String × List Nat) :=
  raw.map (fun p => (p.1, dictFromKeys p.2))

/-- Unpacking of the `arcs` item: `dict.fromkeys` per file. -/
def unpackArcs (raw : List (String × List (Nat × Nat))) :
    List (String × List (Nat × Nat)) :=
  raw.map (fun p => (p.1, dictFromKeys p.2))

/-- `CoverageData._read_file`: every exception inside the `try` block is
swallowed, so each failure case returns whatever `lines`/`arcs` held at
the point the exception was raised (`{}`/`{}`, except that `badArcs`
keeps the already-unpacked line map).  Absent keys default to `{}`. -/
def readDataFile : FileContent →
    List (String × List Nat) × List (String × List (Nat × Nat))
  | .missing => ([], [])
  | .corrupt => ([], [])
  | .nonDict => ([], [])
  | .badLines => ([], [])
  | .badArcs rawLines => (unpackLines rawLines, [])
  | .record r => (unpackLines (r.lines.getD []), unpackArcs (r.arcs.getD []))

/-- `CoverageData.read_file`: replace the in-memory maps by the decoded
content of a file. -/
def CoverageData.read_file (cd : CoverageData) (content : FileContent) :
    CoverageData :=
  { cd with lines := (readDataFile content).1, arcs := (readDataFile content).2 }

/-- `CoverageData.line_data`: filenames to sorted lists of executed line
numbers. -/
def CoverageData.line_data (cd : CoverageData) : List (String × List Nat) :=
  cd.lines.map (fun p => (p.1, sortNat p.2))

/-- `CoverageData.arc_data`: filenames to sorted lists of arc pairs. -/
def CoverageData.arc_data (cd : CoverageData) :
    List (String × List (Nat × Nat)) :=
  cd.arcs.map (fun p => (p.1, sortArcs p.2))

/-- The record built by `CoverageData.write_file`: `lines` always,
`arcs` only when `self.arc_data()` is a non-empty dict (Python
truthiness), `collector` only when `self.collector` is a truthy
(non-empty) string. -/
def CoverageData.write_record (cd : CoverageData) : CoverageRecord :=
  { lines := some cd.line_data
  , arcs := if cd.arc_data = [] then none else some cd.arc_data
  , collector :=
      match cd.collector with
      | none => none
      | some s => if s = "" then none else some s }

/-- `CoverageData.erase` acting on the store and on an explicit file
system (the list of existing paths): the data file is removed when
`use_file` is set, the filename is truthy and the file exists; the
in-memory maps are cleared unconditionally. -/
def CoverageData.erase (cd : CoverageData) (disk : List String) :
    CoverageData × List String :=
  ( { cd with lines := [], arcs := [] },
    if cd.use_file = true ∧ cd.filename ≠ "" ∧ cd.filename ∈ disk then
      disk.filter (fun g => g ≠ cd.filename)
    else disk )

/-- The merge loop shared by `add_line_data`, `add_arc_data` and
`combine_parallel_data`: for each entry of `new`,
`d.setdefault(filename, {}).update(file_data)`. -/
def mergeInto {κ α : Type} [DecidableEq κ] [DecidableEq α]
    (d : List (κ × List α)) (new : List (κ × List α)) : List (κ × List α) :=
  new.foldl (fun acc p => setdefaultUpdate acc p.1 p.2) d

/-- `CoverageData.add_line_data`. -/
def CoverageData.add_line_data (cd : CoverageData)
    (data : List (String × List Nat)) : CoverageData :=
  { cd with lines := mergeInto cd.lines data }

/-- `CoverageData.add_arc_data`. -/
def CoverageData.add_arc_data (cd : CoverageData)
    (data : List (String × List (Nat × Nat))) : CoverageData :=
  { cd with arcs := mergeInto cd.arcs data }

/-- Body of the `combine_parallel_data` loop for one directory entry
`e = (name, content)`: entries whose name starts with the local part
`loc` of the data-file name are decoded and their line data merged. -/
def combineStep (loc : String) (L : List (String × List Nat))
    (e : String × FileContent) : List (String × List Nat) :=
  if strStarts e.1 loc = true then mergeInto L (readDataFile e.2).1 else L

/-- `CoverageData.combine_parallel_data`: `listing` is the directory
listing (`os.listdir`) paired with the content found at each entry; every
entry whose name starts with the local part of `self.filename` is decoded
with `_read_file` and only its line data is merged in. -/
def CoverageData.combine_parallel_data (cd : CoverageData)
    (listing : List (String × FileContent)) : CoverageData :=
  { cd with lines := listing.foldl (combineStep (basename cd.filename)) cd.lines }

/-- `CoverageData.executed_files`: `list(self.lines.keys())`. -/
def CoverageData.executed_files (cd : CoverageData) : List String :=
  cd.lines.map (fun p => p.1)

/-- `CoverageData.executed_lines`: `self.lines.get(filename) or {}`. -/
def CoverageData.executed_lines (cd : CoverageData) (f : String) : List Nat :=
  (dGet cd.lines f).getD []

/-- `CoverageData.executed_arcs`: `self.arcs.get(filename) or {}`. -/
def CoverageData.executed_arcs (cd : CoverageData) (f : String) :
    List (Nat × Nat) :=
  (dGet cd.arcs f).getD []

/-- `CoverageData.summary`: keys are full paths or basenames, values the
number of keys of each file's line dict; later entries overwrite earlier
ones on key collision. -/
def CoverageData.summary (cd : CoverageData) (fullpath : Bool) :
    List (String × Nat) :=
  cd.lines.foldl
    (fun summ p =>
      dSet summ (if fullpath then p.1 else basename p.1) p.2.length)
    []

/-! ## Specification-side helpers

These do not come from the source; they only give theorem statements a
vocabulary (Python dict equality is key/value-set equality, insertion
order is invisible to it). -/

/-- The association list has no repeated key (always true of an embedded
Python dict). -/
def KeysNodup {κ β : Type} (d : List (κ × β)) : Prop :=
  (d.map (fun p => p.1)).Nodup

instance {κ β : Type} [DecidableEq κ] (d : List (κ × β)) :
    Decidable (KeysNodup d) := by
  unfold KeysNodup
  infer_instance

/-- A well-formed store state: both maps are embeddings of actual Python
dicts, so no outer key repeats and no inner key repeats. -/
def WFData (cd : CoverageData) : Prop :=
  KeysNodup cd.lines ∧ (∀ p ∈ cd.lines, p.2.Nodup) ∧
  KeysNodup cd.arcs ∧ (∀ p ∈ cd.arcs, p.2.Nodup)

instance : DecidablePred WFData := fun cd => by
  unfold WFData KeysNodup; infer_instance

/-- `x` is recorded under key `k` in the dict-of-dicts `d`. -/
def memL {κ α : Type} [DecidableEq κ] (d : List (κ × List α)) (k : κ)
    (x : α) : Prop :=
  ∃ v, dGet d k = some v ∧ x ∈ v

/-- Python dict equality for dicts of `None`-valued dicts: same keys, and
under each key the same set of inner keys. -/
def dictEquiv {κ α : Type} [DecidableEq κ] (d₁ d₂ : List (κ × List α)) :
    Prop :=
  (∀ k, (dGet d₁ k).isSome ↔ (dGet d₂ k).isSome) ∧
  (∀ k x, memL d₁ k x ↔ memL d₂ k x)

/-- The value (`len` of the line dict) contributed by the last entry of
`d` whose key maps to `k` under `fn`: the "later one encountered wins"
semantics of `summary`. -/
def lastVal (fn : String → String) (k : String) :
    List (String × List Nat) → Option Nat
  | [] => none
  | p :: d =>
      match lastVal fn k d with
      | some n => some n
      | none => if fn p.1 = k then some p.2.length else none

/-! ## Basic lemmas about the dict embedding -/

theorem pyUpdate_nil {α : Type} [DecidableEq α] (d : List α) :
    pyUpdate d [] = d := rfl

theorem pyUpdate_cons {α : Type} [DecidableEq α] (d : List α) (a : α)
    (new : List α) :
    pyUpdate d (a :: new) = pyUpdate (pyInsertKey d a) new := rfl

theorem mem_pyInsertKey {α : Type} [DecidableEq α] {d : List α} {k x : α} :
    x ∈ pyInsertKey d k ↔ x ∈ d ∨ x = k := by
  unfold pyInsertKey
  split
  · rename_i h
    constructor
    · exact fun hx => Or.inl hx
    · rintro (hx | rfl)
      · exact hx
      · exact h
  · simp

theorem mem_pyUpdate {α : Type} [DecidableEq α] {x : α} {new d : List α} :
    x ∈ pyUpdate d new ↔ x ∈ d ∨ x ∈ new := by
  induction new generalizing d with
  | nil => simp [pyUpdate_nil]
  | cons a new ih =>
    rw [pyUpdate_cons, ih, mem_pyInsertKey]
    simp
    tauto

theorem pyInsertKey_of_mem {α : Type} [DecidableEq α] {d : List α} {k : α}
    (h : k ∈ d) : pyInsertKey d k = d := by
  unfold pyInsertKey
  exact if_pos h

theorem pyUpdate_eq_self {α : Type} [DecidableEq α] {d new : List α}
    (h : ∀ x ∈ new, x ∈ d) : pyUpdate d new = d := by
  induction new with
  | nil => rfl
  | cons a new ih =>
    rw [pyUpdate_cons, pyInsertKey_of_mem (h a (by simp))]
    exact ih (fun x hx => h x (by simp [hx]))

theorem pyInsertKey_nodup {α : Type} [DecidableEq α] {d : List α} (k : α)
    (h : d.Nodup) : (pyInsertKey d k).Nodup := by
  unfold pyInsertKey
  split
  · exact h
  · rename_i hk
    simp [List.nodup_append, h, hk]

theorem pyUpdate_nodup {α : Type} [DecidableEq α] {d new : List α}
    (h : d.Nodup) : (pyUpdate d new).Nodup := by
  induction new generalizing d with
  | nil => exact h
  | cons a new ih => exact ih (pyInsertKey_nodup a h)

theorem dictFromKeys_nodup {α : Type} [DecidableEq α] (seq : List α) :
    (dictFromKeys seq).Nodup :=
  pyUpdate_nodup List.nodup_nil

theorem mem_dictFromKeys {α : Type} [DecidableEq α] {x : α} {seq : List α} :
    x ∈ dictFromKeys seq ↔ x ∈ seq := by
  unfold dictFromKeys
  rw [mem_pyUpdate]
  simp

theorem pyUpdate_append_of_disjoint {α : Type} [DecidableEq α]
    {d new : List α} (hn : new.Nodup) (hd : ∀ x ∈ new, x ∉ d) :
    pyUpdate d new = d ++ new := by
  induction new generalizing d with
  | nil => simp [pyUpdate_nil]
  | cons a new ih =>
    rw [pyUpdate_cons]
    have ha : a ∉ d := hd a (by simp)
    have hkey : pyInsertKey d a = d ++ [a] := by
      unfold pyInsertKey
      exact if_neg ha
    rw [hkey, ih hn.of_cons]
    · simp
    · intro x hx
      simp only [List.mem_append, List.mem_singleton]
      rintro (hxd | rfl)
      · exact hd x (by simp [hx]) hxd
      · exact (List.nodup_cons.1 hn).1 hx

theorem dictFromKeys_eq_self {α : Type} [DecidableEq α] {seq : List α}
    (h : seq.Nodup) : dictFromKeys seq = seq := by
  unfold dictFromKeys
  rw [pyUpdate_append_of_disjoint h (by simp)]
  simp

theorem dGet_append {κ β : Type} [DecidableEq κ] (d₁ d₂ : List (κ × β))
    (k : κ) :
    dGet (d₁ ++ d₂) k =
      match dGet d₁ k with
      | some v => some v
      | none => dGet d₂ k := by
  induction d₁ with
  | nil => simp [dGet]
  | cons p d ih =>
    by_cases h : p.1 = k <;> simp [dGet, h, ih]

theorem dGet_isSome_iff {κ β : Type} [DecidableEq κ] {d : List (κ × β)}
    {k : κ} :
    (dGet d k).isSome = true ↔ k ∈ d.map (fun p => p.1) := by
  induction d with
  | nil => simp [dGet]
  | cons p d ih =>
    by_cases h : p.1 = k <;> simp [dGet, h, ih]
    exact fun he => absurd he.symm h

theorem dGet_eq_none_iff {κ β : Type} [DecidableEq κ] {d : List (κ × β)}
    {k : κ} :
    dGet d k = none ↔ k ∉ d.map (fun p => p.1) := by
  rw [← dGet_isSome_iff]
  cases dGet d k <;> simp

theorem dGet_mapSet {κ β : Type} [DecidableEq κ] (d : List (κ × β)) (k : κ)
    (v : β) :
    dGet (d.map (fun p => if p.1 = k then (k, v) else p)) k =
      if (dGet d k).isSome then some v else none := by
  induction d with
  | nil => simp [dGet]
  | cons p d ih =>
    by_cases h : p.1 = k <;> simp [dGet, h, ih]

theorem dGet_mapSet_ne {κ β : Type} [DecidableEq κ] (d : List (κ × β))
    {k k' : κ} (v : β) (hne : k' ≠ k) :
    dGet (d.map (fun p => if p.1 = k then (k, v) else p)) k' = dGet d k' := by
  induction d with
  | nil => simp [dGet]
  | cons p d ih =>
    by_cases h : p.1 = k
    · have : ¬(k = k') := fun he => hne he.symm
      simp [dGet, h, this, ih]
    · simp only [List.map, h, if_neg]
      by_cases h' : p.1 = k' <;> simp [dGet, h', ih]

theorem dGet_dSet_self {κ β : Type} [DecidableEq κ] (d : List (κ × β))
    (k : κ) (v : β) :
    dGet (dSet d k v) k = some v := by
  unfold dSet
  split
  · rename_i h
    rw [dGet_mapSet, if_pos h]
  · rename_i h
    have hn : dGet d k = none := by
      cases hg : dGet d k
      · rfl
      · exact absurd (by simp [hg]) h
    rw [dGet_append, hn]
    simp [dGet]

theorem dGet_dSet_ne {κ β : Type} [DecidableEq κ] (d : List (κ × β))
    {k k' : κ} (v : β) (hne : k' ≠ k) :
    dGet (dSet d k v) k' = dGet d k' := by
  unfold dSet
  split
  · exact dGet_mapSet_ne d v hne
  · rw [dGet_append]
    have hkk : ¬(k = k') := fun he => hne he.symm
    have : dGet [(k, v)] k' = none := by
      simp [dGet, hkk]
    rw [this]
    cases dGet d k' <;> rfl

theorem dGet_dSet {κ β : Type} [DecidableEq κ] (d : List (κ × β))
    (k k' : κ) (v : β) :
    dGet (dSet d k v) k' = if k' = k then some v else dGet d k' := by
  by_cases h : k' = k
  · subst h
    simp [dGet_dSet_self]
  · simp [h, dGet_dSet_ne d v h]

theorem mapSet_eq_self {κ β : Type} [DecidableEq κ] {d : List (κ × β)}
    {k : κ} {v : β} (h : ∀ p ∈ d, ¬(p.1 = k)) :
    d.map (fun p => if p.1 = k then (k, v) else p) = d := by
  induction d with
  | nil => rfl
  | cons p d ih =>
    simp only [List.map_cons, if_neg (h p (by simp))]
    rw [ih (fun q hq => h q (by simp [hq]))]

theorem mapSet_of_get {κ β : Type} [DecidableEq κ] {d : List (κ × β)}
    {k : κ} {v : β} (hnd : KeysNodup d) (hget : dGet d k = some v) :
    d.map (fun p => if p.1 = k then (k, v) else p) = d := by
  induction d with
  | nil => simp [dGet] at hget
  | cons p d ih =>
    have hnd' : p.1 ∉ d.map (fun q => q.1) ∧ KeysNodup d := by
      unfold KeysNodup at hnd ⊢
      simpa using hnd
    by_cases h : p.1 = k
    · rw [dGet, if_pos h] at hget
      have hv : v = p.2 := by
        injection hget with h'
        exact h'.symm
      subst hv
      simp only [List.map_cons, if_pos h]
      have hrest : d.map (fun q => if q.1 = k then (k, p.2) else q) = d := by
        apply mapSet_eq_self
        intro q hq hqk
        apply hnd'.1
        rw [h]
        exact List.mem_map.2 ⟨q, hq, hqk⟩
      rw [hrest, ← h]
    · rw [dGet, if_neg h] at hget
      simp only [List.map_cons, if_neg h]
      rw [ih hnd'.2 hget]

theorem dSet_eq_self {κ β : Type} [DecidableEq κ] {d : List (κ × β)}
    {k : κ} {v : β} (hnd : KeysNodup d) (hget : dGet d k = some v) :
    dSet d k v = d := by
  unfold dSet
  rw [if_pos (by simp [hget])]
  exact mapSet_of_get hnd hget

theorem dSet_keys_of_mem {κ β : Type} [DecidableEq κ] {d : List (κ × β)}
    {k : κ} (v : β) (h : (dGet d k).isSome = true) :
    (dSet d k v).map (fun p => p.1) = d.map (fun p => p.1) := by
  unfold dSet
  rw [if_pos h, List.map_map]
  apply List.map_congr_left
  intro p _
  by_cases hp : p.1 = k <;> simp [hp]

theorem keysNodup_dSet {κ β : Type} [DecidableEq κ] {d : List (κ × β)}
    (k : κ) (v : β) (h : KeysNodup d) : KeysNodup (dSet d k v) := by
  by_cases hs : (dGet d k).isSome = true
  · unfold KeysNodup
    rw [dSet_keys_of_mem v hs]
    exact h
  · have hnone : dGet d k = none := by
      cases hg : dGet d k
      · rfl
      · exact absurd (by simp [hg]) hs
    have hk : k ∉ d.map (fun p => p.1) := dGet_eq_none_iff.1 hnone
    unfold dSet
    rw [if_neg hs]
    unfold KeysNodup
    rw [List.map_append]
    rw [List.nodup_append]
    refine ⟨h, by simp, ?_⟩
    intro a ha hb
    simp at hb
    subst hb
    exact hk ha

theorem dGet_setdefaultUpdate_self {κ α : Type} [DecidableEq κ]
    [DecidableEq α] (d : List (κ × List α)) (k : κ) (new : List α) :
    dGet (setdefaultUpdate d k new) k =
      some (pyUpdate ((dGet d k).getD []) new) :=
  dGet_dSet_self d k _

theorem dGet_setdefaultUpdate_ne {κ α : Type} [DecidableEq κ]
    [DecidableEq α] (d : List (κ × List α)) {k k' : κ} (new : List α)
    (hne : k' ≠ k) :
    dGet (setdefaultUpdate d k new) k' = dGet d k' :=
  dGet_dSet_ne d _ hne

theorem keysNodup_setdefaultUpdate {κ α : Type} [DecidableEq κ]
    [DecidableEq α] {d : List (κ × List α)} (k : κ) (new : List α)
    (h : KeysNodup d) : KeysNodup (setdefaultUpdate d k new) :=
  keysNodup_dSet k _ h

theorem setdefaultUpdate_eq_self {κ α : Type} [DecidableEq κ]
    [DecidableEq α] {d : List (κ × List α)} {k : κ} {v new : List α}
    (hnd : KeysNodup d) (hget : dGet d k = some v)
    (hsub : ∀ x ∈ new, x ∈ v) : setdefaultUpdate d k new = d := by
  unfold setdefaultUpdate
  rw [hget]
  simp only [Option.getD_some]
  rw [pyUpdate_eq_self hsub]
  exact dSet_eq_self hnd hget

/-! ## mergeInto: extensional characterization, monotonicity, idempotence -/

theorem mergeInto_nil {κ α : Type} [DecidableEq κ] [DecidableEq α]
    (d : List (κ × List α)) : mergeInto d [] = d := rfl

theorem mergeInto_cons {κ α : Type} [DecidableEq κ] [DecidableEq α]
    (d : List (κ × List α)) (p : κ × List α) (new : List (κ × List α)) :
    mergeInto d (p :: new) = mergeInto (setdefaultUpdate d p.1 p.2) new := rfl

theorem memL_setdefaultUpdate {κ α : Type} [DecidableEq κ] [DecidableEq α]
    (d : List (κ × List α)) (k k' : κ) (new : List α) (x : α) :
    memL (setdefaultUpdate d k new) k' x ↔
      memL d k' x ∨ (k' = k ∧ x ∈ new) := by
  unfold memL
  by_cases h : k' = k
  · subst h
    rw [dGet_setdefaultUpdate_self]
    constructor
    · rintro ⟨v, hv, hx⟩
      injection hv with hv
      rw [← hv] at hx
      rcases mem_pyUpdate.1 hx with hc | hn
      · left
        cases hget : dGet d k' with
        | none => rw [hget] at hc; simp at hc
        | some w =>
          rw [hget] at hc
          exact ⟨w, rfl, by simpa using hc⟩
      · right
        exact ⟨rfl, hn⟩
    · rintro (⟨v, hv, hx⟩ | ⟨-, hx⟩)
      · refine ⟨_, rfl, mem_pyUpdate.2 (Or.inl ?_)⟩
        rw [hv]
        simpa using hx
      · exact ⟨_, rfl, mem_pyUpdate.2 (Or.inr hx)⟩
  · rw [dGet_setdefaultUpdate_ne d new h]
    simp [h]

theorem isSome_setdefaultUpdate {κ α : Type} [DecidableEq κ] [DecidableEq α]
    (d : List (κ × List α)) (k k' : κ) (new : List α) :
    (dGet (setdefaultUpdate d k new) k').isSome = true ↔
      (dGet d k').isSome = true ∨ k' = k := by
  unfold setdefaultUpdate
  rw [dGet_dSet]
  by_cases h : k' = k <;> simp [h]

theorem memL_mergeInto {κ α : Type} [DecidableEq κ] [DecidableEq α]
    (d : List (κ × List α)) (new : List (κ × List α)) (k : κ) (x : α) :
    memL (mergeInto d new) k x ↔
      memL d k x ∨ ∃ p ∈ new, p.1 = k ∧ x ∈ p.2 := by
  induction new generalizing d with
  | nil => simp [mergeInto_nil]
  | cons p new ih =>
    rw [mergeInto_cons, ih, memL_setdefaultUpdate]
    constructor
    · rintro ((hd | ⟨hk, hx⟩) | ⟨q, hq, hqk, hqx⟩)
      · exact Or.inl hd
      · exact Or.inr ⟨p, by simp, hk.symm, hx⟩
      · exact Or.inr ⟨q, by simp [hq], hqk, hqx⟩
    · rintro (hd | ⟨q, hq, hqk, hqx⟩)
      · exact Or.inl (Or.inl hd)
      · rcases List.mem_cons.1 hq with rfl | hq'
        · exact Or.inl (Or.inr ⟨hqk.symm, hqx⟩)
        · exact Or.inr ⟨q, hq', hqk, hqx⟩

theorem isSome_mergeInto {κ α : Type} [DecidableEq κ] [DecidableEq α]
    (d : List (κ × List α)) (new : List (κ × List α)) (k : κ) :
    (dGet (mergeInto d new) k).isSome = true ↔
      (dGet d k).isSome = true ∨ ∃ p ∈ new, p.1 = k := by
  induction new generalizing d with
  | nil => simp [mergeInto_nil]
  | cons p new ih =>
    rw [mergeInto_cons, ih, isSome_setdefaultUpdate]
    constructor
    · rintro ((hd | hk) | ⟨q, hq, hqk⟩)
      · exact Or.inl hd
      · exact Or.inr ⟨p, by simp, hk.symm⟩
      · exact Or.inr ⟨q, by simp [hq], hqk⟩
    · rintro (hd | ⟨q, hq, hqk⟩)
      · exact Or.inl (Or.inl hd)
      · rcases List.mem_cons.1 hq with rfl | hq'
        · exact Or.inl (Or.inr hqk.symm)
        · exact Or.inr ⟨q, hq', hqk⟩

theorem keysNodup_mergeInto {κ α : Type} [DecidableEq κ] [DecidableEq α]
    {d : List (κ × List α)} (new : List (κ × List α)) (h : KeysNodup d) :
    KeysNodup (mergeInto d new) := by
  induction new generalizing d with
  | nil => exact h
  | cons p new ih =>
    rw [mergeInto_cons]
    exact ih (keysNodup_setdefaultUpdate p.1 p.2 h)

theorem dGet_mergeInto_mono {κ α : Type} [DecidableEq κ] [DecidableEq α]
    {d : List (κ × List α)} (new : List (κ × List α)) {k : κ} {v : List α}
    (h : dGet d k = some v) :
    ∃ w, dGet (mergeInto d new) k = some w ∧ ∀ x ∈ v, x ∈ w := by
  induction new generalizing d v with
  | nil => exact ⟨v, h, fun x hx => hx⟩
  | cons p new ih =>
    rw [mergeInto_cons]
    by_cases hk : k = p.1
    · subst hk
      have hstep : dGet (setdefaultUpdate d p.1 p.2) p.1 =
          some (pyUpdate v p.2) := by
        rw [dGet_setdefaultUpdate_self, h]
        rfl
      obtain ⟨w, hw, hsub⟩ := ih hstep
      exact ⟨w, hw, fun x hx => hsub x (mem_pyUpdate.2 (Or.inl hx))⟩
    · have hstep : dGet (setdefaultUpdate d p.1 p.2) k = some v := by
        rw [dGet_setdefaultUpdate_ne d p.2 hk, h]
      exact ih hstep

/-- Every entry of `new` ends up contained in the corresponding value of
`d`. -/
def SubsetOf {κ α : Type} [DecidableEq κ] (new d : List (κ × List α)) :
    Prop :=
  ∀ p ∈ new, ∃ v, dGet d p.1 = some v ∧ ∀ x ∈ p.2, x ∈ v

theorem mergeInto_eq_self {κ α : Type} [DecidableEq κ] [DecidableEq α]
    {d new : List (κ × List α)} (hnd : KeysNodup d) (h : SubsetOf new d) :
    mergeInto d new = d := by
  induction new with
  | nil => rfl
  | cons p new ih =>
    rw [mergeInto_cons]
    obtain ⟨v, hv, hsub⟩ := h p (by simp)
    rw [setdefaultUpdate_eq_self hnd hv hsub]
    exact ih (fun q hq => h q (by simp [hq]))

theorem mergeInto_contains {κ α : Type} [DecidableEq κ] [DecidableEq α]
    (d : List (κ × List α)) (new : List (κ × List α)) :
    SubsetOf new (mergeInto d new) := by
  induction new generalizing d with
  | nil => intro p hp; simp at hp
  | cons q new ih =>
    intro p hp
    rcases List.mem_cons.1 hp with rfl | hp'
    · rw [mergeInto_cons]
      have hstep : dGet (setdefaultUpdate d p.1 p.2) p.1 =
          some (pyUpdate ((dGet d p.1).getD []) p.2) :=
        dGet_setdefaultUpdate_self d p.1 p.2
      obtain ⟨w, hw, hsub⟩ := dGet_mergeInto_mono new hstep
      exact ⟨w, hw, fun x hx =>
        hsub x (mem_pyUpdate.2 (Or.inr hx))⟩
    · rw [mergeInto_cons]
      exact ih _ p hp'

/-! ## Sorting lemmas and order instances -/

instance : IsTotal (Nat × Nat) arcLe :=
  ⟨fun a b => by unfold arcLe; omega⟩

instance : IsTrans (Nat × Nat) arcLe :=
  ⟨fun a b c hab hbc => by unfold arcLe at hab hbc ⊢; omega⟩

instance : IsAntisymm (Nat × Nat) arcLe :=
  ⟨fun a b hab hba => by
    obtain ⟨x, y⟩ := a
    obtain ⟨u, v⟩ := b
    unfold arcLe at hab hba
    simp only [Prod.mk.injEq]
    simp only at hab hba
    omega⟩

theorem sortNat_sorted (l : List Nat) : (sortNat l).Sorted (· ≤ ·) :=
  List.sorted_insertionSort _ l

theorem sortNat_perm (l : List Nat) : List.Perm (sortNat l) l :=
  List.perm_insertionSort _ l

theorem sortNat_nodup {l : List Nat} (h : l.Nodup) : (sortNat l).Nodup :=
  (sortNat_perm l).nodup_iff.2 h

theorem sortNat_of_sorted {l : List Nat} (h : l.Sorted (· ≤ ·)) :
    sortNat l = l :=
  h.insertionSort_eq

theorem sortNat_idem (l : List Nat) : sortNat (sortNat l) = sortNat l :=
  sortNat_of_sorted (sortNat_sorted l)

theorem sortArcs_sorted (l : List (Nat × Nat)) : (sortArcs l).Sorted arcLe :=
  List.sorted_insertionSort _ l

theorem sortArcs_perm (l : List (Nat × Nat)) : List.Perm (sortArcs l) l :=
  List.perm_insertionSort _ l

theorem sortArcs_nodup {l : List (Nat × Nat)} (h : l.Nodup) :
    (sortArcs l).Nodup :=
  (sortArcs_perm l).nodup_iff.2 h

theorem sortArcs_of_sorted {l : List (Nat × Nat)} (h : l.Sorted arcLe) :
    sortArcs l = l :=
  h.insertionSort_eq

theorem sortArcs_idem (l : List (Nat × Nat)) :
    sortArcs (sortArcs l) = sortArcs l :=
  sortArcs_of_sorted (sortArcs_sorted l)

theorem dGet_mapValues {κ β γ : Type} [DecidableEq κ] (g : β → γ)
    (d : List (κ × β)) (k : κ) :
    dGet (d.map (fun p => (p.1, g p.2))) k = (dGet d k).map g := by
  induction d with
  | nil => simp [dGet]
  | cons p d ih =>
    by_cases h : p.1 = k <;> simp [dGet, h, ih]

theorem mem_getD_iff_memL {κ α : Type} [DecidableEq κ]
    (d : List (κ × List α)) (k : κ) (x : α) :
    x ∈ (dGet d k).getD [] ↔ memL d k x := by
  cases h : dGet d k <;> simp [memL, h]

/-! ## Claim theorems -/

/-- C5: for every store state and every directory listing,
`combine_parallel_data` leaves the in-memory arc map unchanged — only line
data from the decoded records is merged; arc data read during combine is
not folded in. -/
theorem combine_parallel_data_arcs_unchanged (cd : CoverageData)
    (listing : List (String × FileContent)) :
    (cd.combine_parallel_data listing).arcs = cd.arcs ∧
    (∀ f, (cd.combine_parallel_data listing).executed_arcs f =
      cd.executed_arcs f) ∧
    (cd.combine_parallel_data listing).arc_data = cd.arc_data :=
  ⟨rfl, fun _ => rfl, rfl⟩

/-- C7: `erase` resets the in-memory line and arc maps to empty regardless
of the `use_file` flag (so `executed_files()` is empty afterwards), and
when file storage is enabled and the resolved file exists, the file is
deleted from the disk. -/
theorem erase_resets_and_deletes (cd : CoverageData) (disk : List String) :
    (cd.erase disk).1.lines = [] ∧
    (cd.erase disk).1.arcs = [] ∧
    (cd.erase disk).1.executed_files = [] ∧
    (cd.use_file = true → cd.filename ≠ "" →
      cd.filename ∉ (cd.erase disk).2) := by
  refine ⟨rfl, rfl, rfl, ?_⟩
  intro hu hf
  show cd.filename ∉
    (if cd.use_file = true ∧ cd.filename ≠ "" ∧ cd.filename ∈ disk then
      disk.filter (fun g => g ≠ cd.filename)
    else disk)
  by_cases hd : cd.filename ∈ disk
  · rw [if_pos ⟨hu, hf, hd⟩]
    intro hmem
    rcases List.mem_filter.1 hmem with ⟨-, hne⟩
    simp at hne
  · rw [if_neg (fun hcond => hd hcond.2.2)]
    exact hd

/-- Witness for C7 at a concrete store and disk. -/
theorem erase_resets_and_deletes_witness :
    ((freshData "/d/.cov" none).erase ["/d/.cov", "other"]).1.lines = [] ∧
    ((freshData "/d/.cov" none).erase ["/d/.cov", "other"]).1.executed_files
      = [] ∧
    "/d/.cov" ∉ ((freshData "/d/.cov" none).erase ["/d/.cov", "other"]).2 :=
  ⟨(erase_resets_and_deletes (freshData "/d/.cov" none)
      ["/d/.cov", "other"]).1,
   (erase_resets_and_deletes (freshData "/d/.cov" none)
      ["/d/.cov", "other"]).2.2.1,
   (erase_resets_and_deletes (freshData "/d/.cov" none)
      ["/d/.cov", "other"]).2.2.2 (by decide) (by decide)⟩

/-- C9: adding a mapping that associates a file with an empty set of line
numbers creates an entry for that file when absent: the file then appears
in `executed_files()` and in `line_data()` with an empty line list;
`add_arc_data` behaves the same way on the arc map. -/
theorem add_empty_data_creates_entry (cd : CoverageData) (f : String)
    (hl : dGet cd.lines f = none) (ha : dGet cd.arcs f = none) :
    f ∈ (cd.add_line_data [(f, [])]).executed_files ∧
    dGet (cd.add_line_data [(f, [])]).line_data f = some [] ∧
    dGet (cd.add_arc_data [(f, [])]).arcs f = some [] := by
  have hline : dGet (cd.add_line_data [(f, [])]).lines f = some [] := by
    show dGet (setdefaultUpdate cd.lines f []) f = some []
    rw [dGet_setdefaultUpdate_self, hl]
    rfl
  have harc : dGet (cd.add_arc_data [(f, [])]).arcs f = some [] := by
    show dGet (setdefaultUpdate cd.arcs f []) f = some []
    rw [dGet_setdefaultUpdate_self, ha]
    rfl
  refine ⟨?_, ?_, harc⟩
  · have hs : (dGet (cd.add_line_data [(f, [])]).lines f).isSome = true := by
      rw [hline]
      rfl
    exact dGet_isSome_iff.1 hs
  · show dGet ((cd.add_line_data [(f, [])]).lines.map
      (fun p => (p.1, sortNat p.2))) f = some []
    rw [dGet_mapValues, hline]
    rfl

/-- Witness for C9 at a fresh store. -/
theorem add_empty_data_creates_entry_witness :
    "a.py" ∈ ((freshData "c" none).add_line_data
      [("a.py", [])]).executed_files ∧
    dGet ((freshData "c" none).add_line_data
      [("a.py", [])]).line_data "a.py" = some [] ∧
    dGet ((freshData "c" none).add_arc_data
      [("a.py", [])]).arcs "a.py" = some [] :=
  add_empty_data_creates_entry (freshData "c" none) "a.py"
    (by decide) (by decide)

/-- C3 (amended): record-level decoding is total and never raises; when
the file is missing, unreadable, not a dict, or its `lines` entry fails to
decode, both returned maps are empty; but when the `lines` entry decodes
and the `arcs` entry then fails, the already-decoded line map is returned
together with an empty arc map. -/
theorem read_file_defensive :
    readDataFile .missing = ([], []) ∧
    readDataFile .corrupt = ([], []) ∧
    readDataFile .nonDict = ([], []) ∧
    readDataFile .badLines = ([], []) ∧
    (∀ rawLines, readDataFile (.badArcs rawLines) =
      (unpackLines rawLines, [])) :=
  ⟨rfl, rfl, rfl, rfl, fun _ => rfl⟩

/-- Counterexample to C3 as stated: a pickled dict whose `lines` entry is
well-formed but whose `arcs` entry fails to decode (for example
`{"lines": {"f.py": [1]}, "arcs": 5}`) does not deserialize to the
expected record shape, yet `_read_file` returns a non-empty line map
rather than an empty record. -/
theorem read_file_badArcs_cex :
    readDataFile (.badArcs [("f.py", [1])]) = ([("f.py", [1])], []) ∧
    (readDataFile (.badArcs [("f.py", [1])])).1 ≠ [] := by
  decide

/-- C6 (amended): the record built by `write_file` always contains the
`lines` key, mapping every file of the line map to its sorted line list;
it contains the `arcs` key exactly when the in-memory arc map has at
least one file entry (even one whose arc set is empty); and it contains
the `collector` key exactly when a non-empty collector string was
configured. -/
theorem write_record_shape (cd : CoverageData) :
    cd.write_record.lines = some cd.line_data ∧
    (cd.write_record.arcs = none ↔ cd.arcs = []) ∧
    (cd.write_record.collector = none ↔ cd.collector.getD "" = "") := by
  refine ⟨rfl, ?_, ?_⟩
  · show (if cd.arc_data = [] then none else some cd.arc_data) = none ↔
      cd.arcs = []
    by_cases h : cd.arc_data = []
    · rw [if_pos h]
      have harcs : cd.arcs = [] := by
        simpa [CoverageData.arc_data] using h
      simp [harcs]
    · rw [if_neg h]
      constructor
      · intro hc
        simp at hc
      · intro harcs
        exact absurd (by simp [CoverageData.arc_data, harcs]) h
  · show (match cd.collector with
      | none => none
      | some s => if s = "" then none else some s) = none ↔
      cd.collector.getD "" = ""
    cases hc : cd.collector with
    | none => simp
    | some s =>
      by_cases hs : s = "" <;> simp [hs]

/-- Counterexample to C6 as stated: after `add_arc_data({"f.py": {}})` the
arc map has a file entry whose arc set is empty; no file has a non-empty
arc set, yet the written record contains the `arcs` key. -/
theorem write_record_arcs_cex :
    (((freshData ".coverage" none).add_arc_data
      [("f.py", [])]).write_record).arcs ≠ none ∧
    (∀ p ∈ ((freshData ".coverage" none).add_arc_data
      [("f.py", [])]).arcs, p.2 = []) := by
  decide

/-- C1: two `add_line_data` calls for the same file union the given line
sets into the file's previous set (creating the entry if absent), the
order of the two calls does not matter, and repeating an identical
`add_line_data` call leaves the line map unchanged. -/
theorem add_line_data_union (cd : CoverageData) (f : String)
    (A B : List Nat) (hnd : KeysNodup cd.lines) :
    (∀ n, n ∈ ((cd.add_line_data [(f, A)]).add_line_data
        [(f, B)]).executed_lines f ↔
      n ∈ cd.executed_lines f ∨ n ∈ A ∨ n ∈ B) ∧
    (∀ n, n ∈ ((cd.add_line_data [(f, A)]).add_line_data
        [(f, B)]).executed_lines f ↔
      n ∈ ((cd.add_line_data [(f, B)]).add_line_data
        [(f, A)]).executed_lines f) ∧
    (∀ data : List (String × List Nat),
      ((cd.add_line_data data).add_line_data data).lines =
        (cd.add_line_data data).lines) := by
  have mem2 : ∀ (S T : List Nat) (n : Nat),
      n ∈ ((cd.add_line_data [(f, S)]).add_line_data
        [(f, T)]).executed_lines f ↔
        memL cd.lines f n ∨ n ∈ S ∨ n ∈ T := by
    intro S T n
    show n ∈ (dGet (mergeInto (mergeInto cd.lines [(f, S)]) [(f, T)]) f).getD []
      ↔ _
    rw [mem_getD_iff_memL, memL_mergeInto, memL_mergeInto]
    simp
    tauto
  refine ⟨?_, ?_, ?_⟩
  · intro n
    rw [mem2 A B n]
    have : n ∈ cd.executed_lines f ↔ memL cd.lines f n :=
      mem_getD_iff_memL cd.lines f n
    tauto
  · intro n
    rw [mem2 A B n, mem2 B A n]
    tauto
  · intro data
    show mergeInto (mergeInto cd.lines data) data = mergeInto cd.lines data
    exact mergeInto_eq_self (keysNodup_mergeInto data hnd)
      (mergeInto_contains cd.lines data)

/-- Witness for C1 at a fresh store with concrete line sets. -/
theorem add_line_data_union_witness :
    KeysNodup (freshData "c" none).lines ∧
    (2 ∈ (((freshData "c" none).add_line_data
        [("a.py", [1, 2])]).add_line_data
        [("a.py", [2, 3])]).executed_lines "a.py" ↔
      2 ∈ (freshData "c" none).executed_lines "a.py" ∨
        2 ∈ [1, 2] ∨ 2 ∈ [2, 3]) :=
  ⟨by decide,
   (add_line_data_union (freshData "c" none) "a.py" [1, 2] [2, 3]
      (by decide)).1 2⟩

/-- C2: writing a store's state and reading the written record back into a
fresh store yields identical `line_data()` and `arc_data()` outputs.  The
hypotheses say the store state embeds actual Python dicts (no inner key is
duplicated), which holds for every reachable state. -/
theorem write_read_roundtrip (cd fresh : CoverageData)
    (hl : ∀ p ∈ cd.lines, p.2.Nodup) (ha : ∀ p ∈ cd.arcs, p.2.Nodup) :
    (fresh.read_file (.record cd.write_record)).line_data = cd.line_data ∧
    (fresh.read_file (.record cd.write_record)).arc_data = cd.arc_data := by
  constructor
  · show (unpackLines ((some cd.line_data).getD [])).map
      (fun p => (p.1, sortNat p.2)) = cd.line_data
    simp only [Option.getD_some, unpackLines, CoverageData.line_data,
      List.map_map]
    apply List.map_congr_left
    intro p hp
    simp only [Function.comp]
    rw [dictFromKeys_eq_self (sortNat_nodup (hl p hp)), sortNat_idem]
  · show (unpackArcs
      ((if cd.arc_data = [] then none else some cd.arc_data).getD [])).map
      (fun p => (p.1, sortArcs p.2)) = cd.arc_data
    by_cases hz : cd.arcs = []
    · have hdz : cd.arc_data = [] := by
        simp [CoverageData.arc_data, hz]
      rw [if_pos hdz, hdz]
      rfl
    · have hne : ¬(cd.arc_data = []) := fun h =>
        hz (by simpa [CoverageData.arc_data] using h)
      rw [if_neg hne]
      simp only [Option.getD_some, unpackArcs, CoverageData.arc_data,
        List.map_map]
      apply List.map_congr_left
      intro p hp
      simp only [Function.comp]
      rw [dictFromKeys_eq_self (sortArcs_nodup (ha p hp)), sortArcs_idem]

/-- Concrete store used by the round-trip witness: a fresh store populated
through the public accumulation API. -/
def roundtripStore : CoverageData :=
  ((freshData "/d/.coverage" (some "coverage")).add_line_data
    [("a.py", [3, 1]), ("b.py", [2])]).add_arc_data [("a.py", [(1, 3)])]

/-- Witness for C2 at a concrete store. -/
theorem write_read_roundtrip_witness :
    (∀ p ∈ roundtripStore.lines, p.2.Nodup) ∧
    (∀ p ∈ roundtripStore.arcs, p.2.Nodup) ∧
    ((freshData "x" none).read_file
      (.record roundtripStore.write_record)).line_data =
        roundtripStore.line_data ∧
    ((freshData "x" none).read_file
      (.record roundtripStore.write_record)).arc_data =
        roundtripStore.arc_data :=
  ⟨by decide, by decide,
   (write_read_roundtrip roundtripStore (freshData "x" none)
      (by decide) (by decide)).1,
   (write_read_roundtrip roundtripStore (freshData "x" none)
      (by decide) (by decide)).2⟩

/-! ## summary: last-wins characterization -/

theorem lastVal_eq_none {fn : String → String} {k : String}
    {L : List (String × List Nat)} (h : ∀ p ∈ L, ¬(fn p.1 = k)) :
    lastVal fn k L = none := by
  induction L with
  | nil => rfl
  | cons p L ih =>
    unfold lastVal
    rw [ih (fun q hq => h q (by simp [hq]))]
    simp [h p (by simp)]

theorem dGet_summary_foldl (fn : String → String)
    (L : List (String × List Nat)) (acc : List (String × Nat)) (k : String) :
    dGet (L.foldl (fun summ p => dSet summ (fn p.1) p.2.length) acc) k =
      match lastVal fn k L with
      | some n => some n
      | none => dGet acc k := by
  induction L generalizing acc with
  | nil => simp [lastVal]
  | cons p L ih =>
    rw [List.foldl_cons, ih]
    cases hL : lastVal fn k L with
    | some n => simp [lastVal, hL]
    | none =>
      by_cases h : fn p.1 = k
      · simp [lastVal, hL, h, dGet_dSet]
      · have hne : ¬(k = fn p.1) := fun he => h he.symm
        simp [lastVal, hL, h, dGet_dSet, hne]

theorem keysNodup_summary_foldl (fn : String → String)
    (L : List (String × List Nat)) (acc : List (String × Nat))
    (h : KeysNodup acc) :
    KeysNodup (L.foldl (fun summ p => dSet summ (fn p.1) p.2.length) acc) := by
  induction L generalizing acc with
  | nil => exact h
  | cons p L ih => exact ih _ (keysNodup_dSet _ _ h)

theorem dGet_mem {κ β : Type} [DecidableEq κ] {d : List (κ × β)} {k : κ}
    {v : β} (h : dGet d k = some v) : (k, v) ∈ d := by
  induction d with
  | nil => simp [dGet] at h
  | cons p d ih =>
    by_cases hp : p.1 = k
    · rw [dGet, if_pos hp] at h
      injection h with h
      have hkv : (k, v) = p := by
        rw [← hp, ← h]
      rw [hkv]
      exact List.mem_cons_self p d
    · rw [dGet, if_neg hp] at h
      exact List.mem_cons_of_mem p (ih h)

theorem lastVal_of_keysNodup {L : List (String × List Nat)} {f : String}
    {v : List Nat} (hnd : KeysNodup L) (hget : dGet L f = some v) :
    lastVal (fun g => g) f L = some v.length := by
  induction L with
  | nil => simp [dGet] at hget
  | cons p L ih =>
    have hnd' : p.1 ∉ L.map (fun q => q.1) ∧ KeysNodup L := by
      unfold KeysNodup at hnd ⊢
      simpa using hnd
    by_cases h : p.1 = f
    · rw [dGet, if_pos h] at hget
      injection hget with hv
      have hnone : lastVal (fun g => g) f L = none := by
        apply lastVal_eq_none
        intro q hq hqf
        apply hnd'.1
        rw [h]
        exact List.mem_map.2 ⟨q, hq, hqf⟩
      unfold lastVal
      rw [hnone]
      simp [h, hv]
    · rw [dGet, if_neg h] at hget
      unfold lastVal
      rw [ih hnd'.2 hget]

/-- C8: `summary` maps each file identifier (full path when `fullpath`,
else basename) to the number of distinct executed lines; the result never
has a duplicated key, and with `fullpath = false` the value under each
basename is the one contributed by the entry encountered latest in
iteration order (silent overwrite on collision). -/
theorem summary_spec (cd : CoverageData) (hnd : KeysNodup cd.lines)
    (hin : ∀ p ∈ cd.lines, p.2.Nodup) :
    (∀ b, KeysNodup (cd.summary b)) ∧
    (∀ f v, dGet cd.lines f = some v →
      dGet (cd.summary true) f = some (dictFromKeys v).length) ∧
    (∀ k, dGet (cd.summary false) k = lastVal basename k cd.lines) := by
  refine ⟨?_, ?_, ?_⟩
  · intro b
    have hrw : cd.summary b = cd.lines.foldl
        (fun summ p =>
          dSet summ ((fun g => if b then g else basename g) p.1) p.2.length)
        [] := rfl
    rw [hrw]
    exact keysNodup_summary_foldl (fun g => if b then g else basename g)
      cd.lines [] (by unfold KeysNodup; simp)
  · intro f v hget
    have hrw : cd.summary true = cd.lines.foldl
        (fun summ p => dSet summ ((fun g => g) p.1) p.2.length) [] := rfl
    rw [hrw, dGet_summary_foldl (fun g => g) cd.lines [] f,
      lastVal_of_keysNodup hnd hget,
      dictFromKeys_eq_self (hin (f, v) (dGet_mem hget))]
  · intro k
    have hrw : cd.summary false = cd.lines.foldl
        (fun summ p => dSet summ (basename p.1) p.2.length) [] := rfl
    rw [hrw, dGet_summary_foldl basename cd.lines [] k]
    cases hL : lastVal basename k cd.lines <;> rfl

/-- Concrete store with a basename collision, for the C8 witness. -/
def summaryStore : CoverageData :=
  (freshData "c" none).add_line_data
    [("/x/mod.py", [1, 2, 3, 4, 5]), ("/y/mod.py", [1, 2, 3, 4, 5, 6, 7])]

/-- Witness for C8 at the collision store. -/
theorem summary_spec_witness :
    KeysNodup summaryStore.lines ∧
    (∀ p ∈ summaryStore.lines, p.2.Nodup) ∧
    KeysNodup (summaryStore.summary false) ∧
    dGet (summaryStore.summary true) "/x/mod.py" =
      some (dictFromKeys [1, 2, 3, 4, 5]).length ∧
    dGet (summaryStore.summary false) "mod.py" =
      lastVal basename "mod.py" summaryStore.lines :=
  ⟨by decide, by decide,
   (summary_spec summaryStore (by decide) (by decide)).1 false,
   (summary_spec summaryStore (by decide) (by decide)).2.1 "/x/mod.py"
     [1, 2, 3, 4, 5] (by decide),
   (summary_spec summaryStore (by decide) (by decide)).2.2 "mod.py"⟩

/-- Specification helper for C10: two record entries with the same file
key and the same set of stored elements. -/
def sameKeyElems {α : Type} (p q : String × List α) : Prop :=
  p.1 = q.1 ∧ (∀ x ∈ p.2, x ∈ q.2) ∧ (∀ x ∈ q.2, x ∈ p.2)

theorem sorted_dictFromKeys_eq {α : Type} [DecidableEq α]
    (le : α → α → Prop) [DecidableRel le] [IsTotal α le] [IsTrans α le]
    [IsAntisymm α le] {v w : List α}
    (h1 : ∀ x ∈ v, x ∈ w) (h2 : ∀ x ∈ w, x ∈ v) :
    (dictFromKeys v).insertionSort le = (dictFromKeys w).insertionSort le := by
  have pv : List.Perm ((dictFromKeys v).insertionSort le) (dictFromKeys v) :=
    List.perm_insertionSort le _
  have pm : List.Perm (dictFromKeys v) (dictFromKeys w) :=
    (List.perm_ext_iff_of_nodup (dictFromKeys_nodup v)
      (dictFromKeys_nodup w)).2
      (fun a => by rw [mem_dictFromKeys, mem_dictFromKeys]
                   exact ⟨h1 a, h2 a⟩)
  have pw : List.Perm (dictFromKeys w) ((dictFromKeys w).insertionSort le) :=
    (List.perm_insertionSort le _).symm
  exact List.eq_of_perm_of_sorted ((pv.trans pm).trans pw)
    (List.sorted_insertionSort le _) (List.sorted_insertionSort le _)

theorem unpack_sort_eq_of_forall₂ {α : Type} [DecidableEq α]
    (le : α → α → Prop) [DecidableRel le] [IsTotal α le] [IsTrans α le]
    [IsAntisymm α le] {L L' : List (String × List α)}
    (h : List.Forall₂ sameKeyElems L L') :
    L.map (fun p => (p.1, (dictFromKeys p.2).insertionSort le)) =
      L'.map (fun p => (p.1, (dictFromKeys p.2).insertionSort le)) := by
  induction h with
  | nil => rfl
  | cons hpq hrest ih =>
    obtain ⟨hk, h1, h2⟩ := hpq
    simp only [List.map_cons, List.cons.injEq, Prod.mk.injEq]
    exact ⟨⟨hk, sorted_dictFromKeys_eq le h1 h2⟩, ih⟩

/-- C10: after `read_file` of a well-formed record, `line_data()` and
`arc_data()` are sorted and duplicate-free even when the record's stored
sequences were unsorted or contained duplicates, and decoding depends
only on the set of elements of each stored sequence: two records with the
same keys and the same per-file element sets decode to equal outputs. -/
theorem read_record_sorted_dedup (cd cd' : CoverageData)
    (r r' : CoverageRecord)
    (hl : List.Forall₂ sameKeyElems (r.lines.getD []) (r'.lines.getD []))
    (ha : List.Forall₂ sameKeyElems (r.arcs.getD []) (r'.arcs.getD [])) :
    (∀ p ∈ (cd.read_file (.record r)).line_data,
      p.2.Sorted (fun a b => a ≤ b) ∧ p.2.Nodup) ∧
    (∀ p ∈ (cd.read_file (.record r)).arc_data,
      p.2.Sorted arcLe ∧ p.2.Nodup) ∧
    (cd.read_file (.record r)).line_data =
      (cd'.read_file (.record r')).line_data ∧
    (cd.read_file (.record r)).arc_data =
      (cd'.read_file (.record r')).arc_data := by
  refine ⟨?_, ?_, ?_, ?_⟩
  · intro p hp
    have hp' : p ∈ (unpackLines (r.lines.getD [])).map
        (fun q => (q.1, sortNat q.2)) := hp
    obtain ⟨q, hq, hpq⟩ := List.mem_map.1 hp'
    rw [← hpq]
    obtain ⟨t, ht, htq⟩ := List.mem_map.1 hq
    refine ⟨sortNat_sorted q.2, ?_⟩
    rw [← htq]
    exact sortNat_nodup (dictFromKeys_nodup t.2)
  · intro p hp
    have hp' : p ∈ (unpackArcs (r.arcs.getD [])).map
        (fun q => (q.1, sortArcs q.2)) := hp
    obtain ⟨q, hq, hpq⟩ := List.mem_map.1 hp'
    rw [← hpq]
    obtain ⟨t, ht, htq⟩ := List.mem_map.1 hq
    refine ⟨sortArcs_sorted q.2, ?_⟩
    rw [← htq]
    exact sortArcs_nodup (dictFromKeys_nodup t.2)
  · show (unpackLines (r.lines.getD [])).map (fun p => (p.1, sortNat p.2)) =
      (unpackLines (r'.lines.getD [])).map (fun p => (p.1, sortNat p.2))
    rw [unpackLines, unpackLines, List.map_map, List.map_map]
    exact unpack_sort_eq_of_forall₂ (fun a b : Nat => a ≤ b) hl
  · show (unpackArcs (r.arcs.getD [])).map (fun p => (p.1, sortArcs p.2)) =
      (unpackArcs (r'.arcs.getD [])).map (fun p => (p.1, sortArcs p.2))
    rw [unpackArcs, unpackArcs, List.map_map, List.map_map]
    exact unpack_sort_eq_of_forall₂ arcLe ha

/-- Unsorted record with duplicates, for the C10 witness. -/
def recU : CoverageRecord :=
  ⟨some [("f.py", [3, 1, 3])], some [("f.py", [(2, 1), (1, 2), (2, 1)])],
   none⟩

/-- A record with the same per-file element sets as `recU`, stored in a
different order and multiplicity. -/
def recV : CoverageRecord :=
  ⟨some [("f.py", [1, 3, 1, 1])], some [("f.py", [(1, 2), (2, 1)])], none⟩

/-- Witness for C10 at a pair of concrete records. -/
theorem read_record_sorted_dedup_witness :
    List.Forall₂ sameKeyElems (recU.lines.getD []) (recV.lines.getD []) ∧
    List.Forall₂ sameKeyElems (recU.arcs.getD []) (recV.arcs.getD []) ∧
    ((freshData "x" none).read_file (.record recU)).line_data =
      ((freshData "y" none).read_file (.record recV)).line_data :=
  ⟨List.Forall₂.cons ⟨rfl, by decide, by decide⟩ List.Forall₂.nil,
   List.Forall₂.cons ⟨rfl, by decide, by decide⟩ List.Forall₂.nil,
   (read_record_sorted_dedup (freshData "x" none) (freshData "y" none)
      recU recV
      (List.Forall₂.cons ⟨rfl, by decide, by decide⟩ List.Forall₂.nil)
      (List.Forall₂.cons ⟨rfl, by decide, by decide⟩
        List.Forall₂.nil)).2.2.1⟩

/-! ## combine_parallel_data: merge fold characterization -/

theorem memL_combine_foldl (loc : String)
    (listing : List (String × FileContent))
    (L : List (String × List Nat)) (k : String) (x : Nat) :
    memL (listing.foldl (combineStep loc) L) k x ↔
      memL L k x ∨ ∃ e ∈ listing, strStarts e.1 loc = true ∧
        ∃ p ∈ (readDataFile e.2).1, p.1 = k ∧ x ∈ p.2 := by
  induction listing generalizing L with
  | nil => simp
  | cons e listing ih =>
    rw [List.foldl_cons, ih]
    constructor
    · rintro (hm | ⟨e', he', hs', hrest'⟩)
      · unfold combineStep at hm
        by_cases hs : strStarts e.1 loc = true
        · rw [if_pos hs] at hm
          rcases (memL_mergeInto _ _ _ _).1 hm with hL | ⟨p, hp, hpk, hpx⟩
          · exact Or.inl hL
          · exact Or.inr ⟨e, by simp, hs, p, hp, hpk, hpx⟩
        · rw [if_neg hs] at hm
          exact Or.inl hm
      · exact Or.inr ⟨e', by simp [he'], hs', hrest'⟩
    · rintro (hL | ⟨e', he', hs', p, hp, hpk, hpx⟩)
      · left
        unfold combineStep
        by_cases hs : strStarts e.1 loc = true
        · rw [if_pos hs]
          exact (memL_mergeInto _ _ _ _).2 (Or.inl hL)
        · rw [if_neg hs]
          exact hL
      · rcases List.mem_cons.1 he' with rfl | he''
        · left
          unfold combineStep
          rw [if_pos hs']
          exact (memL_mergeInto _ _ _ _).2 (Or.inr ⟨p, hp, hpk, hpx⟩)
        · exact Or.inr ⟨e', he'', hs', p, hp, hpk, hpx⟩

theorem isSome_combine_foldl (loc : String)
    (listing : List (String × FileContent))
    (L : List (String × List Nat)) (k : String) :
    (dGet (listing.foldl (combineStep loc) L) k).isSome = true ↔
      (dGet L k).isSome = true ∨ ∃ e ∈ listing, strStarts e.1 loc = true ∧
        ∃ p ∈ (readDataFile e.2).1, p.1 = k := by
  induction listing generalizing L with
  | nil => simp
  | cons e listing ih =>
    rw [List.foldl_cons, ih]
    constructor
    · rintro (hm | ⟨e', he', hs', hrest'⟩)
      · unfold combineStep at hm
        by_cases hs : strStarts e.1 loc = true
        · rw [if_pos hs] at hm
          rcases (isSome_mergeInto _ _ _).1 hm with hL | ⟨p, hp, hpk⟩
          · exact Or.inl hL
          · exact Or.inr ⟨e, by simp, hs, p, hp, hpk⟩
        · rw [if_neg hs] at hm
          exact Or.inl hm
      · exact Or.inr ⟨e', by simp [he'], hs', hrest'⟩
    · rintro (hL | ⟨e', he', hs', p, hp, hpk⟩)
      · left
        unfold combineStep
        by_cases hs : strStarts e.1 loc = true
        · rw [if_pos hs]
          exact (isSome_mergeInto _ _ _).2 (Or.inl hL)
        · rw [if_neg hs]
          exact hL
      · rcases List.mem_cons.1 he' with rfl | he''
        · left
          unfold combineStep
          rw [if_pos hs']
          exact (isSome_mergeInto _ _ _).2 (Or.inr ⟨p, hp, hpk⟩)
        · exact Or.inr ⟨e', he'', hs', p, hp, hpk⟩

theorem combine_foldl_keysNodup (loc : String)
    (listing : List (String × FileContent)) {L : List (String × List Nat)}
    (h : KeysNodup L) : KeysNodup (listing.foldl (combineStep loc) L) := by
  induction listing generalizing L with
  | nil => exact h
  | cons e listing ih =>
    rw [List.foldl_cons]
    apply ih
    unfold combineStep
    split
    · exact keysNodup_mergeInto _ h
    · exact h

theorem combine_foldl_mono (loc : String)
    (listing : List (String × FileContent)) {L : List (String × List Nat)}
    {k : String} {v : List Nat} (h : dGet L k = some v) :
    ∃ w, dGet (listing.foldl (combineStep loc) L) k = some w ∧
      ∀ x ∈ v, x ∈ w := by
  induction listing generalizing L v with
  | nil => exact ⟨v, h, fun x hx => hx⟩
  | cons e listing ih =>
    rw [List.foldl_cons]
    unfold combineStep
    split
    · obtain ⟨u, hu, hsub⟩ := dGet_mergeInto_mono (readDataFile e.2).1 h
      obtain ⟨w, hw, hsub'⟩ := ih hu
      exact ⟨w, hw, fun x hx => hsub' x (hsub x hx)⟩
    · exact ih h

theorem combine_foldl_contains (loc : String)
    (listing : List (String × FileContent)) (L : List (String × List Nat)) :
    ∀ e ∈ listing, strStarts e.1 loc = true →
      SubsetOf (readDataFile e.2).1 (listing.foldl (combineStep loc) L) := by
  induction listing generalizing L with
  | nil =>
    intro e he
    simp at he
  | cons e0 listing ih =>
    intro e he hs
    rcases List.mem_cons.1 he with rfl | he'
    · rw [List.foldl_cons]
      intro p hp
      have h0 : SubsetOf (readDataFile e.2).1 (combineStep loc L e) := by
        unfold combineStep
        rw [if_pos hs]
        exact mergeInto_contains L _
      obtain ⟨v, hv, hsub⟩ := h0 p hp
      obtain ⟨w, hw, hsub'⟩ := combine_foldl_mono loc listing hv
      exact ⟨w, hw, fun x hx => hsub' x (hsub x hx)⟩
    · rw [List.foldl_cons]
      exact ih _ e he' hs

theorem combine_foldl_eq_self (loc : String)
    (listing : List (String × FileContent)) {L : List (String × List Nat)}
    (hnd : KeysNodup L)
    (h : ∀ e ∈ listing, strStarts e.1 loc = true →
      SubsetOf (readDataFile e.2).1 L) :
    listing.foldl (combineStep loc) L = L := by
  induction listing with
  | nil => rfl
  | cons e listing ih =>
    rw [List.foldl_cons]
    have hstep : combineStep loc L e = L := by
      unfold combineStep
      by_cases hs : strStarts e.1 loc = true
      · rw [if_pos hs]
        exact mergeInto_eq_self hnd (h e (by simp) hs)
      · rw [if_neg hs]
    rw [hstep]
    exact ih (fun e' he' hs' => h e' (by simp [he']) hs')

/-- C4: the line data produced by `combine_parallel_data` does not depend
on the order in which the directory entries are traversed (any
permutation yields the same merged line map, in the sense of Python dict
equality), and re-running combine against the same listing leaves the
merged line map literally unchanged. -/
theorem combine_parallel_data_order_idem (cd : CoverageData)
    (listing listing' : List (String × FileContent))
    (hperm : List.Perm listing listing') (hnd : KeysNodup cd.lines) :
    dictEquiv (cd.combine_parallel_data listing).lines
      (cd.combine_parallel_data listing').lines ∧
    ((cd.combine_parallel_data listing).combine_parallel_data
      listing).lines = (cd.combine_parallel_data listing).lines := by
  constructor
  · constructor
    · intro k
      show (dGet (listing.foldl (combineStep (basename cd.filename))
          cd.lines) k).isSome = true ↔
        (dGet (listing'.foldl (combineStep (basename cd.filename))
          cd.lines) k).isSome = true
      rw [isSome_combine_foldl, isSome_combine_foldl]
      constructor
      · rintro (h | ⟨e, he, hrest⟩)
        · exact Or.inl h
        · exact Or.inr ⟨e, hperm.mem_iff.1 he, hrest⟩
      · rintro (h | ⟨e, he, hrest⟩)
        · exact Or.inl h
        · exact Or.inr ⟨e, hperm.mem_iff.2 he, hrest⟩
    · intro k x
      show memL (listing.foldl (combineStep (basename cd.filename))
          cd.lines) k x ↔
        memL (listing'.foldl (combineStep (basename cd.filename))
          cd.lines) k x
      rw [memL_combine_foldl, memL_combine_foldl]
      constructor
      · rintro (h | ⟨e, he, hrest⟩)
        · exact Or.inl h
        · exact Or.inr ⟨e, hperm.mem_iff.1 he, hrest⟩
      · rintro (h | ⟨e, he, hrest⟩)
        · exact Or.inl h
        · exact Or.inr ⟨e, hperm.mem_iff.2 he, hrest⟩
  · exact combine_foldl_eq_self (basename cd.filename) listing
      (combine_foldl_keysNodup (basename cd.filename) listing hnd)
      (fun e he hs =>
        combine_foldl_contains (basename cd.filename) listing cd.lines
          e he hs)

/-- Directory listing with two matching sibling data files, one
non-matching entry and nothing else, for the C4 witness. -/
def dirListing : List (String × FileContent) :=
  [("cov.1", .record ⟨some [("a.py", [1, 2, 3])], none, none⟩),
   ("cov.2", .record ⟨some [("a.py", [2, 3, 4])], none, none⟩),
   ("other.txt", .missing)]

/-- Witness for C4: combining the listing in reversed order yields the
same line map, and re-running combine changes nothing. -/
theorem combine_parallel_data_order_idem_witness :
    List.Perm dirListing dirListing.reverse ∧
    KeysNodup (freshData "/d/cov" none).lines ∧
    dictEquiv
      ((freshData "/d/cov" none).combine_parallel_data dirListing).lines
      ((freshData "/d/cov" none).combine_parallel_data
        dirListing.reverse).lines ∧
    (((freshData "/d/cov" none).combine_parallel_data
        dirListing).combine_parallel_data dirListing).lines =
      ((freshData "/d/cov" none).combine_parallel_data dirListing).lines :=
  ⟨by decide, by decide,
   (combine_parallel_data_order_idem (freshData "/d/cov" none) dirListing
      dirListing.reverse (by decide) (by decide)).1,
   (combine_parallel_data_order_idem (freshData "/d/cov" none) dirListing
      dirListing.reverse (by decide) (by decide)).2⟩
